import Mathlib

/-!
# The echo service of `src/main.cpp`

A shallow embedding of the per-connection protocol code (`ReadBytes`,
`WriteBytes`, `DecryptBuf`, `OnClient`) and the properties of it.

Modelling conventions.

* A byte is a natural number; memory only ever holds values below 256, and
  every store of a computed byte reduces it modulo 256.
* A C array is a list whose length is the size of the array.  A store or a
  transmission that runs past the end of the array is undefined behaviour in
  the source; the embedding stops there with the result `fault`.
* The two directions of the socket are separate values.  The receiving
  direction is the list of events the successive `setsockopt`/`recv` pairs will
  meet; the sending direction is a function giving the return value of each
  `send` call, together with a record of the calls made and the bytes
  delivered.
* The loops carry a fuel counter.  `ReadBytes` and `WriteBytes` start their
  loop with fuel `n`; `ReadBytes_ne_diverge` and `WriteBytes_ne_diverge` show
  that this is always enough.
-/

namespace Proj2

/-- One byte of memory or of the wire. -/
abbrev Byte := Nat

/-- The global `msg_key`. -/
def msg_key : Nat := 0x06

/-- Flag `MsgFlagNoop` of `enum MsgFlag`. -/
def MsgFlagNoop : Nat := 0

/-- Flag `MsgFlagEcho` of `enum MsgFlag`. -/
def MsgFlagEcho : Nat := 1

/-- Flag `MsgFlagEncrypted` of `enum MsgFlag`. -/
def MsgFlagEncrypted : Nat := 2

/-- The size of the packed `MsgHdr`: two `uint16_t` fields. -/
def hdrSize : Nat := 4

/-- The size of `char buf[1024]` in `OnClient`, the value of `sizeof(buf)`. -/
def bufSize : Nat := 1024

/-- Field `msg_flags_` of a `MsgHdr` held as its four raw bytes (the host is
little-endian): bytes 0 and 1. -/
def msg_flags_ (hdr : List Byte) : Nat :=
  hdr.getD 0 0 % 256 + 256 * (hdr.getD 1 0 % 256)

/-- Field `msg_len_` of a `MsgHdr` held as its four raw bytes: bytes 2 and 3. -/
def msg_len_ (hdr : List Byte) : Nat :=
  hdr.getD 2 0 % 256 + 256 * (hdr.getD 3 0 % 256)

/-- What one iteration of the loop of `ReadBytes` meets on the socket. -/
inductive RxEv where
  /-- Function `setsockopt` fails, so `SetReadTimeout` returns false. -/
  | noTimeout
  /-- Function `recv` returns a negative value (socket error or timeout). -/
  | error
  /-- These bytes are available: `recv` returns as many of them as it was
  asked for and leaves the others queued (an empty list is end of stream,
  `recv` returns 0). -/
  | data (bs : List Byte)
  deriving DecidableEq, Repr

/-- The sending direction of the socket. -/
structure Tx where
  /-- Return value of the `i`-th call of `send` when it is asked for `k` bytes. -/
  send : Nat → Nat → Int
  /-- The calls of `send` made so far: the count asked for and the value returned. -/
  calls : List (Nat × Int)
  /-- The bytes delivered to the client so far. -/
  out : List Byte

/-- Result of `ReadBytes`. -/
inductive RdRes where
  /-- The function returned `ok`; `off` is the final value of `ptr - buf`,
  the number of bytes stored. -/
  | done (ok : Bool) (off : Nat) (buf : List Byte) (rx : List RxEv)
  /-- A `recv` stored bytes past the end of the array behind `buf`. -/
  | fault (rx : List RxEv)
  /-- The fuel ran out. -/
  | diverge
  deriving DecidableEq, Repr

/-- Result of `WriteBytes`. -/
inductive WrRes where
  /-- The function returned `ok`. -/
  | done (ok : Bool) (tx : Tx)
  /-- A `send` transmitted bytes from past the end of the array behind `buf`. -/
  | fault (tx : Tx)
  /-- The fuel ran out. -/
  | diverge

/-- Memory after `got` has been stored at `buf + off`. -/
def store (buf : List Byte) (off : Nat) (got : List Byte) : List Byte :=
  buf.take off ++ got ++ buf.drop (off + got.length)

/-- The receive queue after `recv` has taken its bytes from the first event
and `left` of them remain. -/
def requeue (left : List Byte) (rest : List RxEv) : List RxEv :=
  if left = [] then rest else RxEv.data left :: rest

/-- The loop of `ReadBytes`, with `off = ptr - buf`.  Each `recv` is asked for
`ptr - buf + n` bytes, as in the source.  On an empty queue nothing arrives
within the timeout and `recv` returns a negative value. -/
def ReadLoop : Nat → List RxEv → List Byte → Nat → Nat → RdRes
  | fuel, rx, buf, n, off =>
    if off < n then
      match fuel with
      | 0 => RdRes.diverge
      | fuel + 1 =>
        match rx with
        | [] => RdRes.done false off buf []
        | RxEv.noTimeout :: rest => RdRes.done false off buf rest
        | RxEv.error :: rest => RdRes.done false off buf rest
        | RxEv.data bs :: rest =>
          let got := bs.take (off + n)
          if got.length = 0 then RdRes.done false off buf rest
          else if buf.length < off + got.length then
            RdRes.fault (requeue (bs.drop (off + n)) rest)
          else
            ReadLoop fuel (requeue (bs.drop (off + n)) rest)
              (store buf off got) n (off + got.length)
    else RdRes.done true off buf rx

/-- Function `ReadBytes(sk, buf, n)`. -/
def ReadBytes (rx : List RxEv) (buf : List Byte) (n : Nat) : RdRes :=
  ReadLoop n rx buf n 0

/-- The loop of `WriteBytes`, with `off = ptr - buf`.  Each `send` is asked for
`n - (ptr - buf)` bytes. -/
def WriteLoop : Nat → Tx → List Byte → Nat → Nat → WrRes
  | fuel, tx, buf, n, off =>
    if off < n then
      match fuel with
      | 0 => WrRes.diverge
      | fuel + 1 =>
        let ret := tx.send tx.calls.length (n - off)
        if ret ≤ 0 then
          WrRes.done false ⟨tx.send, tx.calls ++ [(n - off, ret)], tx.out⟩
        else if buf.length < off + ret.toNat then
          WrRes.fault
            ⟨tx.send, tx.calls ++ [(n - off, ret)], tx.out ++ (buf.drop off).take ret.toNat⟩
        else
          WriteLoop fuel
            ⟨tx.send, tx.calls ++ [(n - off, ret)], tx.out ++ (buf.drop off).take ret.toNat⟩
            buf n (off + ret.toNat)
    else WrRes.done true tx

/-- Function `WriteBytes(sk, buf, n)`. -/
def WriteBytes (tx : Tx) (buf : List Byte) (n : Nat) : WrRes :=
  WriteLoop n tx buf n 0

/-- Function `DecryptBuf(key, buf, n)`: the first `n` bytes are replaced by
their XOR with `key`. -/
def DecryptBuf (key : Nat) : List Byte → Nat → List Byte
  | b :: bs, n + 1 => (b ^^^ key) % 256 :: DecryptBuf key bs n
  | bs, _ => bs

/-- How the handling of a connection ended. -/
inductive Status where
  /-- Function `OnClient` returned. -/
  | returned
  /-- The cookie check failed and the process called `exit(0)`. -/
  | exited
  /-- Undefined behaviour was reached (access past the end of an array). -/
  | fault
  /-- The fuel of a loop ran out. -/
  | diverge
  deriving DecidableEq, Repr

/-- The calls `OnClient` makes on the receive buffer, in order. -/
inductive Ev where
  /-- Call `ReadBytes(sk, buf, n)`. -/
  | readPayload (n : Nat)
  /-- That call returned `ok` and left `buf` with these contents. -/
  | payloadRead (ok : Bool) (buf : List Byte)
  /-- Call `DecryptBuf(msg_key, buf, n)`. -/
  | decryptPayload (n : Nat)
  /-- Call `WriteBytes(sk, buf, n)`, `buf` having these contents. -/
  | writePayload (n : Nat) (buf : List Byte)
  deriving DecidableEq, Repr

/-- What `OnClient` did. -/
structure Outcome where
  status : Status
  rx : List RxEv
  tx : Tx
  trace : List Ev

/-- The end of `OnClient`: the cookie check. -/
def checkCookie (cookie secret : Nat) : Status :=
  if cookie ≠ secret then Status.exited else Status.returned

/-- Lines 255-257 of `OnClient`: the header is decrypted in place when its
`MsgFlagEncrypted` bit is set. -/
def decryptHdr (hdr : List Byte) : List Byte :=
  if msg_flags_ hdr &&& MsgFlagEncrypted ≠ 0 then DecryptBuf msg_key hdr hdrSize else hdr

/-- The part of `OnClient` after the header has been read into `hdr`. -/
def handleHdr (secret cookie : Nat) (hdr buf0 : List Byte) (rx : List RxEv) (tx : Tx) :
    Outcome :=
  if msg_flags_ hdr &&& MsgFlagEcho ≠ 0 then
    if msg_len_ hdr > bufSize then
      ⟨Status.returned, rx, tx, []⟩
    else
      let hdr1 := decryptHdr hdr
      let n := msg_len_ hdr1
      match ReadBytes rx buf0 n with
      | RdRes.diverge => ⟨Status.diverge, rx, tx, [Ev.readPayload n]⟩
      | RdRes.fault rx1 => ⟨Status.fault, rx1, tx, [Ev.readPayload n]⟩
      | RdRes.done ok _ buf1 rx1 =>
        let enc := msg_flags_ hdr1 &&& MsgFlagEncrypted ≠ 0
        let buf2 := if enc then DecryptBuf msg_key buf1 n else buf1
        let tr := [Ev.readPayload n, Ev.payloadRead ok buf1] ++
          (if enc then [Ev.decryptPayload n] else []) ++ [Ev.writePayload n buf2]
        match WriteBytes tx buf2 n with
        | WrRes.diverge => ⟨Status.diverge, rx1, tx, tr⟩
        | WrRes.fault tx1 => ⟨Status.fault, rx1, tx1, tr⟩
        | WrRes.done _ tx1 => ⟨checkCookie cookie secret, rx1, tx1, tr⟩
  else
    ⟨checkCookie cookie secret, rx, tx, []⟩

/-- Function `OnClient(secret, sk)`.  The locals `hdr` and `buf` are not
initialised in the source: `hdr0` and `buf0` are the bytes they hold on entry. -/
def OnClient (secret : Nat) (hdr0 buf0 : List Byte) (rx : List RxEv) (tx : Tx) : Outcome :=
  let cookie := secret
  match ReadBytes rx hdr0 hdrSize with
  | RdRes.diverge => ⟨Status.diverge, rx, tx, []⟩
  | RdRes.fault rx1 => ⟨Status.fault, rx1, tx, []⟩
  | RdRes.done false _ _ rx1 => ⟨Status.returned, rx1, tx, []⟩
  | RdRes.done true _ hdr rx1 => handleHdr secret cookie hdr buf0 rx1 tx

/-- Number of bytes the calls of `send` in `l` accepted. -/
def sentCount (l : List (Nat × Int)) : Nat :=
  (l.map (fun e => e.2.toNat)).sum

/-- Every call of `send` in `l` was asked for the bytes not yet sent, `off`
bytes of the `n` having been sent before the first of them. -/
def askedRest (n : Nat) : Nat → List (Nat × Int) → Bool
  | _, [] => true
  | off, (a, r) :: l => a == n - off && askedRest n (off + r.toNat) l

/-- Every entry of `l` is a call of `send` really made on the socket: the
value recorded is what `send` returns, as its call number `i` and onwards, for
the count recorded as asked. -/
def answered (send : Nat → Nat → Int) : Nat → List (Nat × Int) → Bool
  | _, [] => true
  | i, (a, r) :: l => r == send i a && answered send (i + 1) l

/-- A sending direction on which every `send` takes all it is asked for. -/
def txAll : Tx := ⟨fun _ k => k, [], []⟩

/-- A sending direction on which every `send` takes at most two bytes. -/
def txTwo : Tx := ⟨fun _ k => if k ≤ 2 then k else 2, [], []⟩

/-- A sending direction on which the first `send` takes at most two bytes and
the second fails. -/
def txBreak : Tx := ⟨fun i k => if i = 0 then (if k ≤ 2 then k else 2) else -1, [], []⟩

/-- An array of `n` zero bytes. -/
def zeros (n : Nat) : List Byte := List.replicate n 0

/-! ## The `MsgFlagEncrypted` bit after the header has been decrypted -/

/-- Masking with 2 tests bit 1. -/
theorem land_two_eq_zero_iff (z : Nat) : z &&& 2 = 0 ↔ z.testBit 1 = false := by
  have h1 : z &&& 2 = (z % 4) &&& 2 := by
    have h3 : z &&& 3 = z % 4 := Nat.and_pow_two_sub_one_eq_mod z 2
    rw [← h3, Nat.and_assoc]
    rfl
  rw [h1, Nat.testBit_to_div_mod]
  have hlt : z % 4 < 4 := Nat.mod_lt _ (by decide)
  have hd : z / 2 ^ 1 % 2 = z % 4 / 2 := by omega
  rw [hd]
  generalize z % 4 = r at hlt
  interval_cases r <;> decide

/-- Bit 1 of a 16-bit field is bit 1 of its low byte. -/
theorem testBit_one_low (a y : Nat) : (a % 256 + 256 * y).testBit 1 = a.testBit 1 := by
  rw [Nat.testBit_to_div_mod, Nat.testBit_to_div_mod]
  have : (a % 256 + 256 * y) / 2 ^ 1 % 2 = a / 2 ^ 1 % 2 := by omega
  rw [this]

/-- Reducing modulo 256 keeps bit 1. -/
theorem testBit_one_mod (a : Nat) : (a % 256).testBit 1 = a.testBit 1 := by
  rw [Nat.testBit_to_div_mod, Nat.testBit_to_div_mod]
  have : a % 256 / 2 ^ 1 % 2 = a / 2 ^ 1 % 2 := by omega
  rw [this]

/-- XOR with `msg_key = 0x06` flips bit 1 of `msg_flags_`: a header that had
`MsgFlagEncrypted` set has it clear once decrypted. -/
theorem flags_encrypted_after_decrypt (hdr : List Byte)
    (h : msg_flags_ hdr &&& MsgFlagEncrypted ≠ 0) :
    msg_flags_ (DecryptBuf msg_key hdr hdrSize) &&& MsgFlagEncrypted = 0 := by
  cases hdr with
  | nil => exact absurd (by decide) h
  | cons a tl =>
    have h0 : (a :: tl).getD 0 0 = a := rfl
    simp only [msg_flags_, MsgFlagEncrypted, h0, ne_eq, land_two_eq_zero_iff, testBit_one_low] at h
    have e : (DecryptBuf msg_key (a :: tl) hdrSize).getD 0 0 = (a ^^^ 6) % 256 := rfl
    simp only [msg_flags_, MsgFlagEncrypted, e, land_two_eq_zero_iff, testBit_one_low,
      testBit_one_mod, Nat.testBit_xor]
    simp only [Bool.not_eq_false] at h
    rw [h]
    decide

/-- After lines 255-257 the `MsgFlagEncrypted` bit of the header is clear,
whatever the header was. -/
theorem flags_after_decryptHdr (hdr : List Byte) :
    msg_flags_ (decryptHdr hdr)
      &&& MsgFlagEncrypted = 0 := by
  by_cases h : msg_flags_ hdr &&& MsgFlagEncrypted ≠ 0
  · rw [decryptHdr, if_pos h]; exact flags_encrypted_after_decrypt hdr h
  · rw [decryptHdr, if_neg h]; exact not_not.mp h

/-- The XOR of two bytes is a byte. -/
theorem xor_key_byte {b key : Nat} (hb : b < 256) (hk : key < 256) :
    (b ^^^ key) % 256 = b ^^^ key :=
  have h : b ^^^ key < 2 ^ 8 := Nat.xor_lt_two_pow hb hk
  Nat.mod_eq_of_lt h

/-! ## `DecryptBuf` -/

/-- Applying `DecryptBuf` twice gives the bytes back. -/
theorem DecryptBuf_twice (key : Nat) (hk : key < 256) :
    ∀ (buf : List Byte) (n : Nat), (∀ b ∈ buf, b < 256) →
      DecryptBuf key (DecryptBuf key buf n) n = buf := by
  intro buf
  induction buf with
  | nil => intro n _; cases n <;> rfl
  | cons b bs ih =>
    intro n hb
    cases n with
    | zero => rfl
    | succ n =>
      have hb0 : b < 256 := hb b (List.mem_cons_self _ _)
      have hbs : ∀ x ∈ bs, x < 256 := fun x hx => hb x (List.mem_cons_of_mem _ hx)
      simp only [DecryptBuf]
      rw [ih n hbs, xor_key_byte hb0 hk, Nat.xor_cancel_right,
        Nat.mod_eq_of_lt hb0]

/-- One application of `DecryptBuf` maps the first `n` bytes and keeps the others. -/
theorem DecryptBuf_head_xor (key : Nat) (hk : key < 256) :
    ∀ (buf : List Byte) (n : Nat), (∀ b ∈ buf, b < 256) →
      DecryptBuf key buf n = (buf.take n).map (fun b => b ^^^ key) ++ buf.drop n := by
  intro buf
  induction buf with
  | nil => intro n _; cases n <;> rfl
  | cons b bs ih =>
    intro n hb
    cases n with
    | zero => rfl
    | succ n =>
      have hb0 : b < 256 := hb b (List.mem_cons_self _ _)
      have hbs : ∀ x ∈ bs, x < 256 := fun x hx => hb x (List.mem_cons_of_mem _ hx)
      simp only [DecryptBuf, List.take_succ_cons, List.map_cons, List.drop_succ_cons,
        List.cons_append]
      rw [ih n hbs, xor_key_byte hb0 hk]

/-- Claim C5: for every key byte, every buffer of bytes and every `n` not
exceeding the buffer length, applying `DecryptBuf key . n` twice returns the
original buffer, and one application changes only the first `n` bytes, each to
its XOR with the key. -/
theorem DecryptBuf_self_inverse (key : Nat) (buf : List Byte) (n : Nat) (hk : key < 256)
    (hb : ∀ b ∈ buf, b < 256) (_hn : n ≤ buf.length) :
    DecryptBuf key (DecryptBuf key buf n) n = buf ∧
      DecryptBuf key buf n = (buf.take n).map (fun b => b ^^^ key) ++ buf.drop n :=
  ⟨DecryptBuf_twice key hk buf n hb, DecryptBuf_head_xor key hk buf n hb⟩

/-- Claim C5 at key 6, the six bytes of `hello!` and `n = 5`. -/
theorem DecryptBuf_self_inverse_witness :
    DecryptBuf 6 (DecryptBuf 6 [104, 101, 108, 108, 111, 33] 5) 5 = [104, 101, 108, 108, 111, 33] ∧
      DecryptBuf 6 [104, 101, 108, 108, 111, 33] 5 =
        ([104, 101, 108, 108, 111, 33].take 5).map (fun b => b ^^^ 6) ++
          [104, 101, 108, 108, 111, 33].drop 5 :=
  DecryptBuf_self_inverse 6 [104, 101, 108, 108, 111, 33] 5 (by decide) (by decide) (by decide)

/-! ## `WriteBytes` -/

/-- The loop of `WriteBytes` on a socket whose `send` never returns more than it
was asked for: it ends, every call asks for the bytes not yet sent, and the
bytes delivered are the next bytes of the buffer. -/
theorem WriteLoop_spec : ∀ (fuel : Nat) (tx : Tx) (buf : List Byte) (n off : Nat),
    (∀ i k, 0 < k → tx.send i k ≤ k) → off ≤ n → n ≤ buf.length → n - off ≤ fuel →
    ∃ ok new, WriteLoop fuel tx buf n off =
        WrRes.done ok ⟨tx.send, tx.calls ++ new, tx.out ++ (buf.drop off).take (sentCount new)⟩ ∧
      askedRest n off new = true ∧
      answered tx.send tx.calls.length new = true ∧
      (ok = true → (∀ e ∈ new, 0 < e.2) ∧ off + sentCount new = n) ∧
      (ok = false → ∃ pre a r, new = pre ++ [(a, r)] ∧ r ≤ 0 ∧ (∀ e ∈ pre, 0 < e.2) ∧
        off + sentCount pre < n) := by
  intro fuel
  induction fuel with
  | zero =>
    intro tx buf n off _ hoff _ hfuel
    have hno : ¬ off < n := by omega
    refine ⟨true, [], ?_, rfl, rfl, ?_, ?_⟩
    · simp [WriteLoop, hno, sentCount]
    · intro _; exact ⟨by simp, by simp [sentCount]; omega⟩
    · intro h; cases h
  | succ fuel ih =>
    intro tx buf n off hs hoff hn hfuel
    by_cases hlt : off < n
    · by_cases hret : tx.send tx.calls.length (n - off) ≤ 0
      · refine ⟨false, [(n - off, tx.send tx.calls.length (n - off))], ?_, ?_, ?_, ?_, ?_⟩
        · have h0 : (tx.send tx.calls.length (n - off)).toNat = 0 := Int.toNat_eq_zero.mpr hret
          simp [WriteLoop, hlt, hret, sentCount, h0]
        · simp [askedRest]
        · simp [answered]
        · intro h; cases h
        · intro _
          exact ⟨[], n - off, _, rfl, hret, by simp, by simp [sentCount]; exact hlt⟩
      · have hle := hs tx.calls.length (n - off) (by omega)
        have hpos : 0 < tx.send tx.calls.length (n - off) := not_le.mp hret
        generalize hrv : tx.send tx.calls.length (n - off) = ret at hle hpos hret
        have hr1 : 0 < ret.toNat := by omega
        have hr2 : off + ret.toNat ≤ n := by omega
        have hnf : ¬ buf.length < off + ret.toNat := by omega
        obtain ⟨ok, new, hrun, hask, hans, htrue, hfalse⟩ :=
          ih ⟨tx.send, tx.calls ++ [(n - off, ret)], tx.out ++ (buf.drop off).take ret.toNat⟩
            buf n (off + ret.toNat) hs hr2 hn (by omega)
        have hans1 : answered tx.send (tx.calls.length + 1) new = true := by
          simpa using hans
        refine ⟨ok, (n - off, ret) :: new, ?_, ?_, ?_, ?_, ?_⟩
        · rw [WriteLoop]
          simp only [hlt, if_true, hrv, hret, if_false, hnf, hrun]
          simp [sentCount, List.take_add, List.drop_drop, Nat.add_comm]
        · simp [askedRest, hask]
        · simp [answered, hrv, hans1]
        · intro h
          obtain ⟨h1, h2⟩ := htrue h
          refine ⟨?_, ?_⟩
          · intro e he
            rcases List.mem_cons.mp he with rfl | he
            · exact hpos
            · exact h1 e he
          · simp [sentCount] at h2 ⊢; omega
        · intro h
          obtain ⟨pre, a, r, hnew, hr, hpre, hcnt⟩ := hfalse h
          refine ⟨(n - off, ret) :: pre, a, r, by simp [hnew], hr, ?_, ?_⟩
          · intro e he
            rcases List.mem_cons.mp he with rfl | he
            · exact hpos
            · exact hpre e he
          · simp [sentCount] at hcnt ⊢; omega
    · have : off = n := by omega
      subst this
      refine ⟨true, [], ?_, rfl, rfl, ?_, ?_⟩
      · rw [WriteLoop]; simp [sentCount]
      · intro _; exact ⟨by simp, by simp [sentCount]⟩
      · intro h; cases h

/-- The loop of `WriteBytes` on a socket whose `send` always takes at least one
byte: it returns true and has delivered `buf[off..n)`. -/
theorem WriteLoop_succeeds : ∀ (fuel : Nat) (tx : Tx) (buf : List Byte) (n off : Nat),
    (∀ i k, 0 < k → 0 < tx.send i k ∧ tx.send i k ≤ k) → off ≤ n → n ≤ buf.length →
    n - off ≤ fuel →
    ∃ new, WriteLoop fuel tx buf n off =
      WrRes.done true ⟨tx.send, tx.calls ++ new, tx.out ++ (buf.drop off).take (n - off)⟩ := by
  intro fuel
  induction fuel with
  | zero =>
    intro tx buf n off _ hoff _ hfuel
    have hno : ¬ off < n := by omega
    have h0 : n - off = 0 := by omega
    exact ⟨[], by simp [WriteLoop, hno, h0]⟩
  | succ fuel ih =>
    intro tx buf n off hs hoff hn hfuel
    by_cases hlt : off < n
    · obtain ⟨hpos, hle⟩ := hs tx.calls.length (n - off) (by omega)
      generalize hrv : tx.send tx.calls.length (n - off) = ret at hle hpos
      have hret : ¬ ret ≤ 0 := not_le.mpr hpos
      have hr2 : off + ret.toNat ≤ n := by omega
      have hnf : ¬ buf.length < off + ret.toNat := by omega
      obtain ⟨new, hrun⟩ :=
        ih ⟨tx.send, tx.calls ++ [(n - off, ret)], tx.out ++ (buf.drop off).take ret.toNat⟩
          buf n (off + ret.toNat) hs hr2 hn (by omega)
      refine ⟨(n - off, ret) :: new, ?_⟩
      rw [WriteLoop]
      simp only [hlt, if_true, hrv, hret, if_false, hnf, hrun]
      have hsplit : n - off = ret.toNat + (n - (off + ret.toNat)) := by omega
      rw [hsplit, List.take_add, List.drop_drop]
      simp [Nat.add_comm]
    · have h0 : n - off = 0 := by omega
      exact ⟨[], by rw [WriteLoop]; simp [hlt, h0]⟩

/-! ## Termination of the two loops -/

/-- Fuel `n - off` is enough for the loop of `ReadBytes`: every iteration that
goes on has stored at least one byte. -/
theorem ReadLoop_ne_diverge : ∀ (fuel : Nat) (rx : List RxEv) (buf : List Byte) (n off : Nat),
    n - off ≤ fuel → ReadLoop fuel rx buf n off ≠ RdRes.diverge := by
  intro fuel
  induction fuel with
  | zero =>
    intro rx buf n off h
    have hno : ¬ off < n := by omega
    rw [ReadLoop.eq_def]; simp [hno]
  | succ fuel ih =>
    intro rx buf n off h
    rw [ReadLoop.eq_def]
    by_cases hlt : off < n
    · simp only [hlt, if_true]
      cases rx with
      | nil => simp
      | cons e rest =>
        cases e with
        | noTimeout => simp
        | error => simp
        | data bs =>
          simp only
          split
          · simp
          · split
            · simp
            · rename_i hg _
              exact ih _ _ _ _ (by omega)
    · simp [hlt]

/-- Fuel `n - off` is enough for the loop of `WriteBytes`, whatever `send` returns. -/
theorem WriteLoop_ne_diverge : ∀ (fuel : Nat) (tx : Tx) (buf : List Byte) (n off : Nat),
    n - off ≤ fuel → WriteLoop fuel tx buf n off ≠ WrRes.diverge := by
  intro fuel
  induction fuel with
  | zero =>
    intro tx buf n off h
    have hno : ¬ off < n := by omega
    rw [WriteLoop]; simp [hno]
  | succ fuel ih =>
    intro tx buf n off h
    rw [WriteLoop]
    by_cases hlt : off < n
    · simp only [hlt, if_true]
      split
      · simp
      · split
        · simp
        · rename_i hg _
          exact ih _ _ _ _ (by omega)
    · simp [hlt]

/-- Function `ReadBytes` terminates. -/
theorem ReadBytes_ne_diverge (rx : List RxEv) (buf : List Byte) (n : Nat) :
    ReadBytes rx buf n ≠ RdRes.diverge :=
  ReadLoop_ne_diverge n rx buf n 0 (by omega)

/-- Function `WriteBytes` terminates. -/
theorem WriteBytes_ne_diverge (tx : Tx) (buf : List Byte) (n : Nat) :
    WriteBytes tx buf n ≠ WrRes.diverge :=
  WriteLoop_ne_diverge n tx buf n 0 (by omega)

/-! ## `ReadBytes` when the socket holds exactly the bytes wanted -/

/-- A store inside the array keeps its size. -/
theorem store_length (buf : List Byte) (off : Nat) (got : List Byte)
    (h : off + got.length ≤ buf.length) : (store buf off got).length = buf.length := by
  simp only [store, List.length_append, List.length_take, List.length_drop]
  omega

/-- The bytes up to the end of a store. -/
theorem store_take (buf : List Byte) (off : Nat) (got : List Byte)
    (h : off + got.length ≤ buf.length) :
    (store buf off got).take (off + got.length) = buf.take off ++ got := by
  have hl : (buf.take off ++ got).length = off + got.length := by
    simp only [List.length_append, List.length_take]; omega
  rw [store, ← hl, List.take_left]

/-- The bytes after a store are untouched. -/
theorem store_drop (buf : List Byte) (off : Nat) (got : List Byte) (n : Nat)
    (h : off + got.length ≤ n) (hb : off + got.length ≤ buf.length) :
    (store buf off got).drop n = buf.drop n := by
  have hl : (buf.take off ++ got).length = off + got.length := by
    simp only [List.length_append, List.length_take]; omega
  obtain ⟨k, rfl⟩ : ∃ k, n = (buf.take off ++ got).length + k := ⟨n - (off + got.length), by omega⟩
  rw [store, List.drop_append, List.drop_drop, hl]

/-- When the socket delivers, in non-empty pieces, exactly the `n - off` bytes
still wanted and nothing more, the loop of `ReadBytes` stores them at
`buf[off..n)` and returns true. -/
theorem ReadLoop_exact : ∀ (chunks : List (List Byte)) (fuel : Nat) (buf : List Byte) (n off : Nat),
    (∀ c ∈ chunks, c ≠ []) → off + chunks.flatten.length = n → n ≤ buf.length → n - off ≤ fuel →
    ReadLoop fuel (chunks.map RxEv.data) buf n off =
      RdRes.done true n (buf.take off ++ chunks.flatten ++ buf.drop n) [] := by
  intro chunks
  induction chunks with
  | nil =>
    intro fuel buf n off _ hlen _ _
    simp at hlen
    subst hlen
    rw [ReadLoop.eq_def]; simp
  | cons c cs ih =>
    intro fuel buf n off hne hlen hn hfuel
    have hc : c ≠ [] := hne c (List.mem_cons_self _ _)
    have hcl : 0 < c.length := List.length_pos.mpr hc
    simp only [List.flatten_cons, List.length_append] at hlen
    have hlt : off < n := by omega
    cases fuel with
    | zero => omega
    | succ fuel =>
      have htake : c.take (off + n) = c := List.take_of_length_le (by omega)
      have hdrop : c.drop (off + n) = [] := List.drop_of_length_le (by omega)
      have hnf : ¬ (buf.length < off + c.length) := by omega
      rw [ReadLoop.eq_def]
      have hc0 : ¬ (c.length = 0) := by omega
      simp only [hlt, if_true, List.map_cons, htake, hdrop, requeue, hnf, hc0, if_false]
      rw [ih fuel (store buf off c) n (off + c.length)
        (fun x hx => hne x (List.mem_cons_of_mem _ hx)) (by omega)
        (by rw [store_length buf off c (by omega)]; exact hn) (by omega),
        store_take buf off c (by omega), store_drop buf off c n (by omega) (by omega)]
      simp


/-! ## `OnClient` -/

/-- Function `OnClient` once the header read has succeeded. -/
theorem OnClient_of_hdr (secret : Nat) (hdr0 buf0 : List Byte) (rx : List RxEv) (tx : Tx)
    (k : Nat) (hdr : List Byte) (rx1 : List RxEv)
    (hrd : ReadBytes rx hdr0 hdrSize = RdRes.done true k hdr rx1) :
    OnClient secret hdr0 buf0 rx tx = handleHdr secret secret hdr buf0 rx1 tx := by
  simp only [OnClient, hrd]

/-- The cookie check passes when the cookie is intact. -/
theorem checkCookie_self (secret : Nat) : checkCookie secret secret = Status.returned := by
  simp [checkCookie]

/-- Function `OnClient` terminates: no run ends for lack of fuel. -/
theorem OnClient_ne_diverge (secret : Nat) (hdr0 buf0 : List Byte) (rx : List RxEv) (tx : Tx) :
    (OnClient secret hdr0 buf0 rx tx).status ≠ Status.diverge := by
  have key : ∀ hdr rx1, (handleHdr secret secret hdr buf0 rx1 tx).status ≠ Status.diverge := by
    intro hdr rx1
    rw [handleHdr]
    by_cases he : msg_flags_ hdr &&& MsgFlagEcho ≠ 0
    · by_cases hl : msg_len_ hdr > bufSize
      · simp [he, hl]
      · rw [if_pos he, if_neg hl]
        simp only [flags_after_decryptHdr hdr]
        cases hr : ReadBytes rx1 buf0 (msg_len_ (decryptHdr hdr)) with
        | diverge => exact absurd hr (ReadBytes_ne_diverge _ _ _)
        | fault rx2 => simp
        | done ok off buf1 rx2 =>
          cases hw : WriteBytes tx buf1 (msg_len_ (decryptHdr hdr)) with
          | diverge => exact absurd hw (WriteBytes_ne_diverge _ _ _)
          | fault tx1 => simp [hw]
          | done ok1 tx1 => simp [hw, checkCookie_self]
    · simp [he, checkCookie_self]
  simp only [OnClient]
  cases hr : ReadBytes rx hdr0 hdrSize with
  | diverge => exact absurd hr (ReadBytes_ne_diverge _ _ _)
  | fault rx1 => simp
  | done ok off hdr rx1 =>
    cases ok with
    | false => simp
    | true => exact key hdr rx1

/-- Claim C3: for every received header whose length field is greater than
1024, whatever its flags, `OnClient` attempts no payload read (no call is made
on the receive buffer and the receive queue is left as the header read left
it), makes no `send` call and delivers no byte, and returns. -/
theorem OnClient_overlength (secret : Nat) (hdr0 buf0 : List Byte) (rx : List RxEv) (tx : Tx)
    (k : Nat) (hdr : List Byte) (rx1 : List RxEv)
    (hrd : ReadBytes rx hdr0 hdrSize = RdRes.done true k hdr rx1)
    (hlen : bufSize < msg_len_ hdr) :
    (OnClient secret hdr0 buf0 rx tx).status = Status.returned ∧
      (OnClient secret hdr0 buf0 rx tx).trace = [] ∧
      (OnClient secret hdr0 buf0 rx tx).rx = rx1 ∧
      (OnClient secret hdr0 buf0 rx tx).tx.calls = tx.calls ∧
      (OnClient secret hdr0 buf0 rx tx).tx.out = tx.out := by
  rw [OnClient_of_hdr secret hdr0 buf0 rx tx k hdr rx1 hrd, handleHdr]
  by_cases he : msg_flags_ hdr &&& MsgFlagEcho ≠ 0
  · simp [he, hlen]
  · simp [he, checkCookie_self]

/-- Claim C3 at the header with flags `0x0001` and length 2000. -/
theorem OnClient_overlength_witness :
    (OnClient 7 (zeros 4) (zeros 1024) [RxEv.data [1, 0, 208, 7]] txAll).status = Status.returned ∧
      (OnClient 7 (zeros 4) (zeros 1024) [RxEv.data [1, 0, 208, 7]] txAll).trace = [] ∧
      (OnClient 7 (zeros 4) (zeros 1024) [RxEv.data [1, 0, 208, 7]] txAll).rx = [] ∧
      (OnClient 7 (zeros 4) (zeros 1024) [RxEv.data [1, 0, 208, 7]] txAll).tx.calls = txAll.calls ∧
      (OnClient 7 (zeros 4) (zeros 1024) [RxEv.data [1, 0, 208, 7]] txAll).tx.out = txAll.out :=
  OnClient_overlength 7 (zeros 4) (zeros 1024) [RxEv.data [1, 0, 208, 7]] txAll 4 [1, 0, 208, 7] []
    (by decide) (by decide)

/-- Claim C6: for every received header whose `MsgFlagEcho` bit is clear,
whatever its length field and its other flag bits, `OnClient` performs no
payload read and no write and returns normally. -/
theorem OnClient_no_echo (secret : Nat) (hdr0 buf0 : List Byte) (rx : List RxEv) (tx : Tx)
    (k : Nat) (hdr : List Byte) (rx1 : List RxEv)
    (hrd : ReadBytes rx hdr0 hdrSize = RdRes.done true k hdr rx1)
    (hecho : msg_flags_ hdr &&& MsgFlagEcho = 0) :
    (OnClient secret hdr0 buf0 rx tx).status = Status.returned ∧
      (OnClient secret hdr0 buf0 rx tx).trace = [] ∧
      (OnClient secret hdr0 buf0 rx tx).rx = rx1 ∧
      (OnClient secret hdr0 buf0 rx tx).tx.calls = tx.calls ∧
      (OnClient secret hdr0 buf0 rx tx).tx.out = tx.out := by
  rw [OnClient_of_hdr secret hdr0 buf0 rx tx k hdr rx1 hrd, handleHdr]
  simp [hecho, checkCookie_self]

/-- Claim C10: whatever the header, its `MsgFlagEncrypted` bit is clear after
lines 255-257, so in every run of `OnClient` the call
`DecryptBuf(msg_key, buf, n)` on the receive buffer is never made and the
buffer handed to `WriteBytes` is the buffer as `ReadBytes` left it. -/
theorem OnClient_payload_untouched (secret : Nat) (hdr0 buf0 : List Byte) (rx : List RxEv)
    (tx : Tx) :
    (∀ hdr, msg_flags_ (decryptHdr hdr) &&& MsgFlagEncrypted = 0) ∧
      (∀ n, Ev.decryptPayload n ∉ (OnClient secret hdr0 buf0 rx tx).trace) ∧
      (∀ n b, Ev.writePayload n b ∈ (OnClient secret hdr0 buf0 rx tx).trace →
        ∃ ok, Ev.payloadRead ok b ∈ (OnClient secret hdr0 buf0 rx tx).trace) := by
  refine ⟨flags_after_decryptHdr, ?_⟩
  have key : ∀ hdr rx1 cookie,
      (∀ n, Ev.decryptPayload n ∉ (handleHdr secret cookie hdr buf0 rx1 tx).trace) ∧
      (∀ n b, Ev.writePayload n b ∈ (handleHdr secret cookie hdr buf0 rx1 tx).trace →
        ∃ ok, Ev.payloadRead ok b ∈ (handleHdr secret cookie hdr buf0 rx1 tx).trace) := by
    intro hdr rx1 cookie
    rw [handleHdr]
    by_cases he : msg_flags_ hdr &&& MsgFlagEcho ≠ 0
    · by_cases hl : msg_len_ hdr > bufSize
      · simp [he, hl]
      · rw [if_pos he, if_neg hl]
        simp only [flags_after_decryptHdr hdr]
        cases hr : ReadBytes rx1 buf0 (msg_len_ (decryptHdr hdr)) with
        | diverge => simp
        | fault rx2 => simp
        | done ok off buf1 rx2 =>
          cases hw : WriteBytes tx buf1 (msg_len_ (decryptHdr hdr)) <;> simp [hw]
    · simp [he]
  simp only [OnClient]
  cases hr : ReadBytes rx hdr0 hdrSize with
  | diverge => simp
  | fault rx1 => simp
  | done ok off hdr rx1 =>
    cases ok with
    | false => simp
    | true => exact key hdr rx1 secret

/-- Claim C2: for every received header with `MsgFlagEcho` set,
`MsgFlagEncrypted` clear and length at most 1024, when the socket then
delivers exactly `msg_len_` payload bytes in any sequence of non-empty pieces
and every `send` takes between one byte and the count it is asked for,
`OnClient` returns having delivered to the client exactly the payload bytes. -/
theorem OnClient_echo (secret : Nat) (hdr0 buf0 : List Byte) (rx : List RxEv) (tx : Tx)
    (k : Nat) (hdr : List Byte) (chunks : List (List Byte))
    (hrd : ReadBytes rx hdr0 hdrSize = RdRes.done true k hdr (chunks.map RxEv.data))
    (hecho : msg_flags_ hdr &&& MsgFlagEcho ≠ 0)
    (hplain : msg_flags_ hdr &&& MsgFlagEncrypted = 0)
    (hlen : msg_len_ hdr ≤ bufSize)
    (hbuf : buf0.length = bufSize)
    (hne : ∀ c ∈ chunks, c ≠ [])
    (hpay : chunks.flatten.length = msg_len_ hdr)
    (hsend : ∀ i k, 0 < k → 0 < tx.send i k ∧ tx.send i k ≤ k) :
    (OnClient secret hdr0 buf0 rx tx).status = Status.returned ∧
      (OnClient secret hdr0 buf0 rx tx).tx.out = tx.out ++ chunks.flatten ∧
      (OnClient secret hdr0 buf0 rx tx).rx = [] := by
  rw [OnClient_of_hdr secret hdr0 buf0 rx tx k hdr _ hrd, handleHdr]
  have hd : decryptHdr hdr = hdr := by simp [decryptHdr, hplain]
  have hl : ¬ msg_len_ hdr > bufSize := by omega
  have hread : ReadBytes (chunks.map RxEv.data) buf0 (msg_len_ hdr) =
      RdRes.done true (msg_len_ hdr) (chunks.flatten ++ buf0.drop (msg_len_ hdr)) [] := by
    have h := ReadLoop_exact chunks (msg_len_ hdr) buf0 (msg_len_ hdr) 0 hne (by omega)
      (by omega) (by omega)
    rw [List.take_zero, List.nil_append] at h
    exact h
  have hlen2 : msg_len_ hdr ≤ (chunks.flatten ++ buf0.drop (msg_len_ hdr)).length := by
    rw [List.length_append]; omega
  obtain ⟨new, hwrite⟩ := WriteLoop_succeeds (msg_len_ hdr) tx
    (chunks.flatten ++ buf0.drop (msg_len_ hdr)) (msg_len_ hdr) 0 hsend
    (by omega) hlen2 (by omega)
  rw [Nat.sub_zero, List.drop_zero, List.take_left' hpay] at hwrite
  rw [if_pos hecho, if_neg hl]
  simp only [hd, hplain, hread, WriteBytes, checkCookie_self]
  simp only [ne_eq, not_true_eq_false, if_false, decide_False, Bool.false_eq_true]
  rw [hwrite]
  exact ⟨rfl, rfl, rfl⟩

/-- Claim C2 at the header with flags `0x0001` and length 5 and the payload
`hello`, received in two pieces and sent back two bytes at a time. -/
theorem OnClient_echo_witness :
    (OnClient 7 (zeros 4) (zeros 1024)
        [RxEv.data [1, 0, 5, 0], RxEv.data [104, 101], RxEv.data [108, 108, 111]] txTwo).status =
        Status.returned ∧
      (OnClient 7 (zeros 4) (zeros 1024)
        [RxEv.data [1, 0, 5, 0], RxEv.data [104, 101], RxEv.data [108, 108, 111]] txTwo).tx.out =
        txTwo.out ++ [[104, 101], [108, 108, 111]].flatten ∧
      (OnClient 7 (zeros 4) (zeros 1024)
        [RxEv.data [1, 0, 5, 0], RxEv.data [104, 101], RxEv.data [108, 108, 111]] txTwo).rx = [] :=
  OnClient_echo 7 (zeros 4) (zeros 1024)
    [RxEv.data [1, 0, 5, 0], RxEv.data [104, 101], RxEv.data [108, 108, 111]] txTwo 4
    [1, 0, 5, 0] [[104, 101], [108, 108, 111]] (by decide) (by decide) (by decide) (by decide)
    (List.length_replicate 1024 0) (by decide) (by decide)
    (by intro i k hk; simp only [txTwo]; split <;> omega)

/-- Claim C6 at the header with flags `0x0000` and length 5. -/
theorem OnClient_no_echo_witness :
    (OnClient 7 (zeros 4) (zeros 1024) [RxEv.data [0, 0, 5, 0]] txAll).status = Status.returned ∧
      (OnClient 7 (zeros 4) (zeros 1024) [RxEv.data [0, 0, 5, 0]] txAll).trace = [] ∧
      (OnClient 7 (zeros 4) (zeros 1024) [RxEv.data [0, 0, 5, 0]] txAll).rx = [] ∧
      (OnClient 7 (zeros 4) (zeros 1024) [RxEv.data [0, 0, 5, 0]] txAll).tx.calls = txAll.calls ∧
      (OnClient 7 (zeros 4) (zeros 1024) [RxEv.data [0, 0, 5, 0]] txAll).tx.out = txAll.out :=
  OnClient_no_echo 7 (zeros 4) (zeros 1024) [RxEv.data [0, 0, 5, 0]] txAll 4 [0, 0, 5, 0] []
    (by decide) (by decide)

/-- Claim C8: for every buffer holding at least `n` bytes and every socket on
which each `send` returns at most the count it was asked for (a positive count
or an error), `WriteBytes` terminates; the calls it records are the calls of
`send` it made, in order, each with the value `send` returned, and each was
asked for exactly the bytes not yet sent; it returns true iff no `send`
failed, and then the bytes delivered are exactly `buf[0..n)`; it returns false
at the first failing `send`, which is the last call made, the bytes delivered
being those the earlier calls took. -/
theorem WriteBytes_exact (tx : Tx) (buf : List Byte) (n : Nat) (hn : n ≤ buf.length)
    (hs : ∀ i k, 0 < k → tx.send i k ≤ k) :
    ∃ ok new, WriteBytes tx buf n =
        WrRes.done ok ⟨tx.send, tx.calls ++ new, tx.out ++ buf.take (sentCount new)⟩ ∧
      askedRest n 0 new = true ∧
      answered tx.send tx.calls.length new = true ∧
      (ok = true ↔ ∀ e ∈ new, 0 < e.2) ∧
      (ok = true → sentCount new = n) ∧
      (ok = false → ∃ pre a r, new = pre ++ [(a, r)] ∧ r ≤ 0 ∧ (∀ e ∈ pre, 0 < e.2) ∧
        sentCount new = sentCount pre ∧ sentCount pre < n) := by
  obtain ⟨ok, new, hrun, hask, hans, htrue, hfalse⟩ :=
    WriteLoop_spec n tx buf n 0 hs (by omega) hn (by omega)
  rw [List.drop_zero] at hrun
  refine ⟨ok, new, hrun, hask, hans, ⟨fun h => (htrue h).1, ?_⟩, ?_, ?_⟩
  · intro hall
    cases ok with
    | true => rfl
    | false =>
      obtain ⟨pre, a, r, hnew, hr, _, _⟩ := hfalse rfl
      have := hall (a, r) (by simp [hnew])
      simp only at this
      omega
  · intro h
    have := (htrue h).2
    omega
  · intro h
    obtain ⟨pre, a, r, hnew, hr, hpre, hcnt⟩ := hfalse h
    refine ⟨pre, a, r, hnew, hr, hpre, ?_, by omega⟩
    have h0 : r.toNat = 0 := Int.toNat_eq_zero.mpr hr
    simp [hnew, sentCount, h0]

/-- Claim C8 at the five bytes of `hello` on a socket whose first `send` takes
two bytes and whose second fails. -/
theorem WriteBytes_exact_witness :
    ∃ ok new, WriteBytes txBreak [104, 101, 108, 108, 111] 5 =
        WrRes.done ok ⟨txBreak.send, txBreak.calls ++ new,
          txBreak.out ++ [104, 101, 108, 108, 111].take (sentCount new)⟩ ∧
      askedRest 5 0 new = true ∧
      answered txBreak.send txBreak.calls.length new = true ∧
      (ok = true ↔ ∀ e ∈ new, 0 < e.2) ∧
      (ok = true → sentCount new = 5) ∧
      (ok = false → ∃ pre a r, new = pre ++ [(a, r)] ∧ r ≤ 0 ∧ (∀ e ∈ pre, 0 < e.2) ∧
        sentCount new = sentCount pre ∧ sentCount pre < 5) :=
  WriteBytes_exact txBreak [104, 101, 108, 108, 111] 5 (by decide)
    (by intro i k hk; simp only [txBreak]; split <;> [split <;> omega; omega])

/-- The run of `WriteBytes` in which the second `send` fails. -/
theorem WriteBytes_txBreak :
    ∃ tx, WriteBytes txBreak [104, 101, 108, 108, 111] 5 = WrRes.done false tx ∧
      tx.out = [104, 101] ∧ tx.calls = [(5, 2), (3, -1)] :=
  ⟨_, rfl, rfl, rfl⟩

/-- The run of `WriteBytes` in which three partial sends deliver the five bytes. -/
theorem WriteBytes_txTwo :
    ∃ tx, WriteBytes txTwo [104, 101, 108, 108, 111] 5 = WrRes.done true tx ∧
      tx.out = [104, 101, 108, 108, 111] ∧ tx.calls = [(5, 2), (3, 2), (1, 1)] :=
  ⟨_, rfl, rfl, rfl⟩

/-! ## Runs in which the code leaves its documented behaviour -/

/-- Claim C1 fails on the header with flags `0x0003` and length 0: the length
passes the check against 1024, the header is then XORed with `0x06`, and
`ReadBytes` is called on the 1024-byte buffer with the count `0x0606 = 1542`;
when the client sends that many bytes they are stored past the end of the
buffer. -/
theorem OnClient_read_count_exceeds_buffer :
    (OnClient 7 (zeros 4) (zeros 1024)
        [RxEv.data [3, 0, 0, 0], RxEv.data (List.replicate 1542 65)] txAll).trace =
        [Ev.readPayload 1542] ∧
      bufSize < 1542 ∧
      (OnClient 7 (zeros 4) (zeros 1024)
        [RxEv.data [3, 0, 0, 0], RxEv.data (List.replicate 1542 65)] txAll).status =
        Status.fault := by
  set_option maxRecDepth 100000 in decide

/-- Claim C7 fails for `n = 4` when the first `recv` returns one byte: the
second `recv` is asked for `1 + 4 = 5` bytes, not for the 3 still wanted, and
when it returns 5 `ReadBytes` returns true having stored 6 bytes; in a 4-byte
array, such as the header, the last two are stored past its end. -/
theorem ReadBytes_stores_past_n :
    ReadBytes [RxEv.data [1], RxEv.data [2, 3, 4, 5, 6]] (zeros 8) 4 =
        RdRes.done true 6 [1, 2, 3, 4, 5, 6, 0, 0] [] ∧
      ReadBytes [RxEv.data [1], RxEv.data [2, 3, 4, 5, 6]] (zeros 4) 4 = RdRes.fault [] := by
  decide

/-- Claim C9 fails on the header with flags `0x0001` and length 5 when only
two payload bytes arrive: `ReadBytes` returns false, and `OnClient` still
calls `WriteBytes` and delivers five bytes, the two received and three bytes
of the buffer that were never received. -/
theorem OnClient_writes_after_failed_read :
    (OnClient 7 (zeros 4) (zeros 1024)
        [RxEv.data [1, 0, 5, 0], RxEv.data [104, 101]] txAll).trace =
        [Ev.readPayload 5, Ev.payloadRead false ([104, 101] ++ zeros 1022),
          Ev.writePayload 5 ([104, 101] ++ zeros 1022)] ∧
      (OnClient 7 (zeros 4) (zeros 1024)
        [RxEv.data [1, 0, 5, 0], RxEv.data [104, 101]] txAll).tx.out = [104, 101, 0, 0, 0] ∧
      (OnClient 7 (zeros 4) (zeros 1024)
        [RxEv.data [1, 0, 5, 0], RxEv.data [104, 101]] txAll).status = Status.returned := by
  set_option maxRecDepth 100000 in decide

/-- Claim C4 fails on the header with flags `0x0003` and length 5 followed by
the five bytes of `hello` XOR 6: the header is XORed with `0x06` after the
length check, so the payload calls are made with the count
`5 XOR 0x0606 = 1539`; the read fails after the five bytes, and `WriteBytes`
sends the five bytes followed by buffer bytes never received and runs past
the end of the 1024-byte buffer. -/
theorem OnClient_encrypted_echo_wrong_length :
    (OnClient 7 (zeros 4) (zeros 1024)
        [RxEv.data [3, 0, 5, 0], RxEv.data [110, 99, 106, 106, 105]] txAll).trace.head? =
        some (Ev.readPayload 1539) ∧
      (OnClient 7 (zeros 4) (zeros 1024)
        [RxEv.data [3, 0, 5, 0], RxEv.data [110, 99, 106, 106, 105]] txAll).tx.out.take 6 =
        [110, 99, 106, 106, 105, 0] ∧
      (OnClient 7 (zeros 4) (zeros 1024)
        [RxEv.data [3, 0, 5, 0], RxEv.data [110, 99, 106, 106, 105]] txAll).status =
        Status.fault := by
  set_option maxRecDepth 100000 in decide

end Proj2
